import Mathlib

/-!
Verification of the data pipeline of the notebook MSTC_RNN_1_TF1Py3.ipynb.

The notebook defines three pieces of original logic:
  - gen_data: builds a random bit sequence X and a label sequence Y whose
    probability of being 1 depends on X at lags 3 and 8;
  - gen_batch: stacks the raw sequences into a matrix of batch_size rows and
    yields column windows of width num_steps (truncated backpropagation);
  - train_network: a training loop that accumulates per-step losses and logs
    the accumulated value divided by 100 at every step that is a positive
    multiple of 100.

Randomness and the losses returned by the TensorFlow session are modelled as
explicit inputs: X is the realized draw of np.random.choice(2, size), the
stream r of rationals models successive np.random.rand() calls, and the
per-step loss values fed to the training loop are an input list.  A Python
exception (an out-of-range index, a shape mismatch on row assignment) is
modelled by Option.none.
-/

/-- Python and numpy indexing on a list: a negative index i means
l[len(l) + i]; any index that is still out of range raises IndexError,
modelled as none. -/
def pyIdx {α : Type} (l : List α) (i : ℤ) : Option α :=
  let j : ℤ := if i < 0 then (l.length : ℤ) + i else i
  if 0 ≤ j then l.get? j.toNat else none

/-- Python slice l[a:b] for nonnegative bounds a and b: clamps at the length
and yields the empty list when a is at least b.  Slicing never raises. -/
def pySlice {α : Type} (l : List α) (a b : ℕ) : List α :=
  (l.take b).drop a

/-- One iteration of the label loop of gen_data, at loop index i with the
current np.random.rand() draw r: threshold starts at 0.5, gains 0.5 when
X[i-3] == 1, loses 0.25 when X[i-8] == 1, and the appended label is 0 when
r > threshold and 1 otherwise.  The lagged reads use Python indexing, so a
failed read (size smaller than 8) aborts with none, modelling IndexError. -/
def genDataStep (X : List ℕ) (r : ℚ) (i : ℕ) : Option ℕ := do
  let x3 ← pyIdx X ((i : ℤ) - 3)
  let x8 ← pyIdx X ((i : ℤ) - 8)
  let threshold : ℚ := 1/2 + (if x3 = 1 then 1/2 else 0) - (if x8 = 1 then 1/4 else 0)
  pure (if threshold < r then 0 else 1)

/-- The loop for i in range(size) of gen_data, started at index i with n
iterations left, collecting the appended labels in order. -/
def genDataLoop (X : List ℕ) (r : ℕ → ℚ) : ℕ → ℕ → Option (List ℕ)
  | _, 0 => some []
  | i, n + 1 => do
    let y ← genDataStep X (r i) i
    let rest ← genDataLoop X r (i + 1) n
    pure (y :: rest)

/-- gen_data of the notebook.  The argument X is the realized value of
np.random.choice(2, size=(size,)) (so size = X.length) and r i is the value
of the i-th call to np.random.rand().  Returns the pair (X, Y), or none when
a lagged read raises IndexError. -/
def gen_data (X : List ℕ) (r : ℕ → ℚ) : Option (List ℕ × List ℕ) :=
  (genDataLoop X r 0 X.length).map (fun Y => (X, Y))

/-- The nonnegative index actually read by the Python expression X[j-k]
for j < len(X): len(X)+j-k when j < k, and j-k otherwise. -/
def lagIdx (n j k : ℕ) : ℕ :=
  if j < k then n + j - k else j - k

/-- The threshold computed by gen_data at loop index j, written with the
resolved nonnegative lag indices. -/
def thrOf (X : List ℕ) (j : ℕ) : ℚ :=
  1/2 + (if X.getD (lagIdx X.length j 3) 0 = 1 then 1/2 else 0)
      - (if X.getD (lagIdx X.length j 8) 0 = 1 then 1/4 else 0)

theorem pyIdx_eq_get? {α : Type} (l : List α) (j k : ℕ)
    (hk : k ≤ l.length) (hj : j < l.length) :
    pyIdx l ((j : ℤ) - k) = l.get? (lagIdx l.length j k) := by
  unfold pyIdx lagIdx
  by_cases h : j < k
  · have hneg : (j : ℤ) - k < 0 := by
      have : (j : ℤ) < k := by exact_mod_cast h
      omega
    rw [if_pos hneg]
    have hpos : (0 : ℤ) ≤ (l.length : ℤ) + ((j : ℤ) - k) := by omega
    rw [if_pos hpos, if_pos h]
    congr 1
    omega
  · have hnneg : ¬ ((j : ℤ) - k < 0) := by
      have : (k : ℤ) ≤ j := by exact_mod_cast Nat.le_of_not_lt h
      omega
    rw [if_neg hnneg]
    have hpos : (0 : ℤ) ≤ (j : ℤ) - k := by omega
    rw [if_pos hpos, if_neg h]
    congr 1
    omega

theorem lagIdx_lt (n j k : ℕ) (hk : 1 ≤ k) (hkn : k ≤ n) (hj : j < n) :
    lagIdx n j k < n := by
  unfold lagIdx
  split <;> omega

/-- On a sequence of length at least 8 the step function of gen_data never
fails, and it returns 0 or 1 according to the threshold test. -/
theorem genDataStep_eq (X : List ℕ) (q : ℚ) (i : ℕ)
    (h8 : 8 ≤ X.length) (hi : i < X.length) :
    genDataStep X q i = some (if thrOf X i < q then 0 else 1) := by
  have h3 : pyIdx X ((i : ℤ) - 3) = X.get? (lagIdx X.length i 3) :=
    pyIdx_eq_get? X i 3 (by omega) hi
  have h8i : pyIdx X ((i : ℤ) - 8) = X.get? (lagIdx X.length i 8) :=
    pyIdx_eq_get? X i 8 (by omega) hi
  have l3 : lagIdx X.length i 3 < X.length := lagIdx_lt _ _ _ (by omega) (by omega) hi
  have l8 : lagIdx X.length i 8 < X.length := lagIdx_lt _ _ _ (by omega) (by omega) hi
  have g3 : X.get? (lagIdx X.length i 3) = some (X.getD (lagIdx X.length i 3) 0) := by
    rw [List.getD_eq_get? ]
    rw [List.get?_eq_get l3]
    simp
  have g8 : X.get? (lagIdx X.length i 8) = some (X.getD (lagIdx X.length i 8) 0) := by
    rw [List.getD_eq_get? ]
    rw [List.get?_eq_get l8]
    simp
  unfold genDataStep
  rw [h3, g3, h8i, g8]
  simp [thrOf]

/-- Characterization of the label loop on sequences of length at least 8:
it succeeds and the k-th collected label is given by the threshold test at
loop index i + k. -/
theorem genDataLoop_eq (X : List ℕ) (r : ℕ → ℚ) (h8 : 8 ≤ X.length) :
    ∀ (n i : ℕ), i + n ≤ X.length →
      ∃ Y, genDataLoop X r i n = some Y ∧ Y.length = n ∧
        ∀ k, k < n → Y.get? k = some (if thrOf X (i + k) < r (i + k) then 0 else 1) := by
  intro n
  induction n with
  | zero =>
    intro i _
    exact ⟨[], rfl, rfl, fun k hk => absurd hk (Nat.not_lt_zero k)⟩
  | succ n ih =>
    intro i hin
    have hi : i < X.length := by omega
    obtain ⟨Y, hY, hlen, hget⟩ := ih (i + 1) (by omega)
    refine ⟨(if thrOf X i < r i then 0 else 1) :: Y, ?_, by simp [hlen], ?_⟩
    · unfold genDataLoop
      rw [genDataStep_eq X (r i) i h8 hi, hY]
      rfl
    · intro k hk
      cases k with
      | zero => simp
      | succ k =>
        have := hget k (by omega)
        simpa [Nat.add_comm, Nat.add_assoc, Nat.add_left_comm] using this

/-- On sequences of length at least 8, gen_data succeeds and returns the
pair (X, Y) with Y of the same length as X, each label determined by the
threshold test. -/
theorem gen_data_some (X : List ℕ) (r : ℕ → ℚ) (h8 : 8 ≤ X.length) :
    ∃ Y, gen_data X r = some (X, Y) ∧ Y.length = X.length ∧
      ∀ k, k < X.length → Y.get? k = some (if thrOf X k < r k then 0 else 1) := by
  obtain ⟨Y, hY, hlen, hget⟩ := genDataLoop_eq X r h8 X.length 0 (by omega)
  refine ⟨Y, ?_, hlen, fun k hk => by simpa using hget k hk⟩
  unfold gen_data
  rw [hY]
  rfl

/-- gen_data on an empty sequence runs zero loop iterations and succeeds. -/
theorem gen_data_nil (r : ℕ → ℚ) : gen_data [] r = some ([], []) := rfl

/-- Rewriting of the label test: appending 0 when the draw exceeds the
threshold and 1 otherwise is the same as appending 1 exactly when the draw
is at most the threshold. -/
theorem label_ite_flip (t q : ℚ) :
    (if t < q then (0 : ℕ) else 1) = (if q ≤ t then 1 else 0) := by
  split_ifs with h1 h2 <;> first | rfl | linarith

/-- From the positional characterization of a list, a getD read at an index
below the length returns the characterized value. -/
theorem getD_of_get?_some {Y : List ℕ} {k v : ℕ} (h : Y.get? k = some v) :
    Y.getD k 0 = v := by
  rw [List.getD_eq_get?, h]
  rfl

/-- C1 (amended: size at least 8 instead of at least 1; for sizes 1 to 7
gen_data raises IndexError, see the counterexample).  For every sequence X
of length at least 8 and every index i below the length, with the i-th
uniform draw r i modelled as an input, gen_data produces Y[i] = 1 exactly
when r i is at most the threshold at i, where the threshold starts at 0.5,
gains 0.5 when the lag-3 bit is 1 and loses 0.25 when the lag-8 bit is 1
(lags resolved by Python negative indexing); the threshold, hence the
probability that a uniform draw on [0,1) lands at or below it, is 1, 3/4,
1/2 or 1/4 according to the two lag bits. -/
theorem C1_threshold_rule (X : List ℕ) (r : ℕ → ℚ) (h8 : 8 ≤ X.length)
    (i : ℕ) (hi : i < X.length) :
    Option.map (fun p => p.2.getD i 0) (gen_data X r)
      = some (if r i ≤ thrOf X i then 1 else 0)
    ∧ thrOf X i =
        (if X.getD (lagIdx X.length i 3) 0 = 1
          then (if X.getD (lagIdx X.length i 8) 0 = 1 then 3/4 else 1)
          else (if X.getD (lagIdx X.length i 8) 0 = 1 then 1/4 else 1/2)) := by
  obtain ⟨Y, hY, _, hget⟩ := gen_data_some X r h8
  constructor
  · rw [hY]
    simp only [Option.map_some']
    rw [getD_of_get?_some (hget i hi), label_ite_flip]
  · unfold thrOf
    split_ifs <;> norm_num

/-- C1 counterexample: at size 1 the claim fails, because gen_data raises
IndexError on the read X[0-8] (the list has fewer than 8 elements), so no
label list is produced at all. -/
theorem C1_cex :
    ¬ (Option.map (fun p => p.2.getD 0 0) (gen_data [0] (fun _ => (1:ℚ)/2))
        = some (if (1:ℚ)/2 ≤ thrOf [0] 0 then 1 else 0)) := by
  have h : gen_data [0] (fun _ => (1:ℚ)/2) = none := rfl
  rw [h]
  simp

/-- C1 witness: the amended theorem applied at a concrete input. -/
theorem C1_witness :
    Option.map (fun p => p.2.getD 0 0)
        (gen_data [1,0,0,0,0,0,0,0] (fun _ => (1:ℚ)/2))
      = some (if (1:ℚ)/2 ≤ thrOf [1,0,0,0,0,0,0,0] 0 then 1 else 0)
    ∧ thrOf [1,0,0,0,0,0,0,0] 0 =
        (if ([1,0,0,0,0,0,0,0] : List ℕ).getD (lagIdx 8 0 3) 0 = 1
          then (if ([1,0,0,0,0,0,0,0] : List ℕ).getD (lagIdx 8 0 8) 0 = 1 then 3/4 else 1)
          else (if ([1,0,0,0,0,0,0,0] : List ℕ).getD (lagIdx 8 0 8) 0 = 1 then 1/4 else 1/2)) :=
  C1_threshold_rule [1,0,0,0,0,0,0,0] (fun _ => (1:ℚ)/2) (by decide) 0 (by decide)

/-- C5 (amended: size at least 8 instead of at least 1; for sizes 1 to 7
gen_data raises IndexError, see the counterexample).  On a bit sequence X of
length at least 8, gen_data returns the pair (X, Y) where Y has the same
length as X and every element of X and of Y is 0 or 1: X by the contract of
np.random.choice(2, .), repeated as a hypothesis, and Y because the loop
appends the literals 0 and 1 only. -/
theorem C5_binary_outputs (X : List ℕ) (r : ℕ → ℚ) (h8 : 8 ≤ X.length)
    (hX : ∀ b ∈ X, b = 0 ∨ b = 1) :
    Option.map Prod.fst (gen_data X r) = some X
    ∧ Option.map (fun p => p.2.length) (gen_data X r) = some X.length
    ∧ Option.map (fun p => p.1.all (fun b => b == 0 || b == 1)
        && p.2.all (fun y => y == 0 || y == 1)) (gen_data X r) = some true := by
  obtain ⟨Y, hY, hlen, hget⟩ := gen_data_some X r h8
  have hYbits : ∀ y ∈ Y, y = 0 ∨ y = 1 := by
    intro y hy
    obtain ⟨n, hn⟩ := List.mem_iff_get?.1 hy
    have hnlen : n < Y.length := by
      by_contra hge
      rw [List.get?_eq_none.2 (Nat.le_of_not_lt hge)] at hn
      exact Option.noConfusion hn
    rw [hget n (by omega)] at hn
    have := Option.some.inj hn
    split at this
    · exact Or.inl this.symm
    · exact Or.inr this.symm
  rw [hY]
  refine ⟨rfl, by simp [hlen], ?_⟩
  simp only [Option.map_some', Option.some.injEq, Bool.and_eq_true, List.all_eq_true]
  constructor
  · intro b hb
    rcases hX b hb with h | h <;> simp [h]
  · intro y hy
    rcases hYbits y hy with h | h <;> simp [h]

/-- C5 counterexample: at size 2 the claim fails, because gen_data raises
IndexError on the lagged reads, so no pair of arrays is returned. -/
theorem C5_cex :
    ¬ (Option.map (fun p => p.2.length) (gen_data [1,0] (fun _ => (1:ℚ)/2))
        = some 2) := by
  have h : gen_data [1,0] (fun _ => (1:ℚ)/2) = none := rfl
  rw [h]
  simp

/-- C5 witness: the amended theorem applied at a concrete input. -/
theorem C5_witness :
    Option.map Prod.fst (gen_data [0,1,0,1,0,1,0,1] (fun _ => (1:ℚ)/4))
      = some [0,1,0,1,0,1,0,1]
    ∧ Option.map (fun p => p.2.length) (gen_data [0,1,0,1,0,1,0,1] (fun _ => (1:ℚ)/4))
      = some ([0,1,0,1,0,1,0,1] : List ℕ).length
    ∧ Option.map (fun p => p.1.all (fun b => b == 0 || b == 1)
        && p.2.all (fun y => y == 0 || y == 1))
        (gen_data [0,1,0,1,0,1,0,1] (fun _ => (1:ℚ)/4)) = some true :=
  C5_binary_outputs [0,1,0,1,0,1,0,1] (fun _ => (1:ℚ)/4) (by decide) (by decide)

/-- C8 (confirmed).  At the start of the sequence the lagged reads of
gen_data wrap around: for size at least 8 and i below 8, the Python read
X[i-3] resolves to index size+i-3 when i < 3 and to i-3 otherwise, the read
X[i-8] resolves to index size+i-8, and the i-th label is computed from the
bits at exactly those indices, so the first eight labels depend on the tail
of X rather than on absent history or a fixed default. -/
theorem C8_negative_index_wrap (X : List ℕ) (r : ℕ → ℚ) (h8 : 8 ≤ X.length)
    (i : ℕ) (hi : i < 8) :
    pyIdx X ((i : ℤ) - 3) = X.get? (if i < 3 then X.length + i - 3 else i - 3)
    ∧ pyIdx X ((i : ℤ) - 8) = X.get? (X.length + i - 8)
    ∧ Option.map (fun p => p.2.getD i 0) (gen_data X r)
        = some (if r i ≤ 1/2
              + (if X.getD (if i < 3 then X.length + i - 3 else i - 3) 0 = 1 then 1/2 else 0)
              - (if X.getD (X.length + i - 8) 0 = 1 then 1/4 else 0)
            then 1 else 0) := by
  have hiX : i < X.length := by omega
  have e3 : lagIdx X.length i 3 = if i < 3 then X.length + i - 3 else i - 3 := rfl
  have e8 : lagIdx X.length i 8 = X.length + i - 8 := by
    unfold lagIdx
    rw [if_pos hi]
  refine ⟨?_, ?_, ?_⟩
  · have h := pyIdx_eq_get? X i 3 (by omega) hiX
    rw [e3] at h
    exact_mod_cast h
  · have h := pyIdx_eq_get? X i 8 (by omega) hiX
    rw [e8] at h
    exact_mod_cast h
  · obtain ⟨Y, hY, _, hget⟩ := gen_data_some X r h8
    rw [hY]
    simp only [Option.map_some']
    rw [getD_of_get?_some (hget i hiX), label_ite_flip]
    unfold thrOf
    rw [e3, e8]

/-- C8 witness: the theorem applied at a concrete input. -/
theorem C8_witness :
    pyIdx [1,1,0,0,1,0,1,0] ((2 : ℤ) - 3)
      = ([1,1,0,0,1,0,1,0] : List ℕ).get? (if 2 < 3 then 8 + 2 - 3 else 2 - 3)
    ∧ pyIdx [1,1,0,0,1,0,1,0] ((2 : ℤ) - 8)
      = ([1,1,0,0,1,0,1,0] : List ℕ).get? (8 + 2 - 8)
    ∧ Option.map (fun p => p.2.getD 2 0)
        (gen_data [1,1,0,0,1,0,1,0] (fun _ => (3:ℚ)/4))
      = some (if (3:ℚ)/4 ≤ 1/2
            + (if ([1,1,0,0,1,0,1,0] : List ℕ).getD (if 2 < 3 then 8 + 2 - 3 else 2 - 3) 0 = 1 then 1/2 else 0)
            - (if ([1,1,0,0,1,0,1,0] : List ℕ).getD (8 + 2 - 8) 0 = 1 then 1/4 else 0)
          then 1 else 0) :=
  C8_negative_index_wrap [1,1,0,0,1,0,1,0] (fun _ => (3:ℚ)/4) (by decide) 2 (by decide)

/-- Truncation of a signed integer to the numpy int32 range, the cast
performed when a value is stored into a matrix created with
np.zeros([...], dtype=np.int32). -/
def int32cast (v : ℤ) : ℤ :=
  (v + 2 ^ 31) % 2 ^ 32 - 2 ^ 31

/-- One row of the stacked data matrix of gen_batch: the contiguous slice
raw[bpl*i : bpl*(i+1)] of the raw sequence, stored elementwise through the
int32 cast of the destination matrix. -/
def stackRow (raw : List ℤ) (bpl i : ℕ) : List ℤ :=
  (pySlice raw (bpl * i) (bpl * (i + 1))).map int32cast

/-- The stacked data matrix of gen_batch: batch_size rows, row i holding
raw[bpl*i : bpl*(i+1)] where bpl = len(raw_x) // batch_size. -/
def stackRows (raw : List ℤ) (bs bpl : ℕ) : List (List ℤ) :=
  (List.range bs).map (fun i => stackRow raw bpl i)

/-- The column window m[:, a:b] of a stacked matrix. -/
def colSlice (m : List (List ℤ)) (a b : ℕ) : List (List ℤ) :=
  m.map (fun row => pySlice row a b)

/-- gen_batch of the notebook, with the sequence of yields collected into a
list.  bpl is batch_partition_length = len(raw_x) // batch_size, and the
i-th yield, for i below epoch_size = bpl // num_steps, is the pair of
column windows [i*num_steps, (i+1)*num_steps) of the stacked matrices. -/
def gen_batch (raw_x raw_y : List ℤ) (bs ns : ℕ) :
    List (List (List ℤ) × List (List ℤ)) :=
  let bpl := raw_x.length / bs
  let dx := stackRows raw_x bs bpl
  let dy := stackRows raw_y bs bpl
  (List.range (bpl / ns)).map
    (fun i => (colSlice dx (i * ns) ((i + 1) * ns), colSlice dy (i * ns) ((i + 1) * ns)))

/-- The condition under which the numpy row assignments
data_x[i] = raw_x[bpl*i : bpl*(i+1)] all succeed: every slice must have
exactly the row length bpl.  (numpy would also broadcast a length-1 slice
into a longer row; that case is subsumed here because the slice length is
proved to equal bpl whenever this checked variant is used.) -/
def rowsOk (raw : List ℤ) (bs bpl : ℕ) : Bool :=
  (List.range bs).all (fun i => (pySlice raw (bpl * i) (bpl * (i + 1))).length == bpl)

/-- gen_batch with the Python failure modes made explicit: none models a
ZeroDivisionError (batch_size or num_steps zero) or a numpy ValueError on a
row assignment whose slice does not fill the row. -/
def gen_batch_checked (raw_x raw_y : List ℤ) (bs ns : ℕ) :
    Option (List (List (List ℤ) × List (List ℤ))) :=
  if bs = 0 ∨ ns = 0 then none
  else
    let bpl := raw_x.length / bs
    if rowsOk raw_x bs bpl && rowsOk raw_y bs bpl then
      some (gen_batch raw_x raw_y bs ns)
    else none

theorem pySlice_length {α : Type} (l : List α) (a b : ℕ) :
    (pySlice l a b).length = min b l.length - a := by
  simp [pySlice]

/-- Every slice taken by the stacking loop has exactly length bpl, provided
bpl * batch_size does not exceed the raw length; this holds in particular
for bpl = len // batch_size. -/
theorem stack_slice_length (raw : List ℤ) (bs bpl i : ℕ)
    (hle : bpl * bs ≤ raw.length) (hi : i < bs) :
    (pySlice raw (bpl * i) (bpl * (i + 1))).length = bpl := by
  rw [pySlice_length]
  have h1 : bpl * (i + 1) ≤ bpl * bs := Nat.mul_le_mul_left bpl (by omega)
  have h2 : bpl * i + bpl = bpl * (i + 1) := by ring
  omega

theorem stackRow_length (raw : List ℤ) (bs bpl i : ℕ)
    (hle : bpl * bs ≤ raw.length) (hi : i < bs) :
    (stackRow raw bpl i).length = bpl := by
  rw [stackRow, List.length_map]
  exact stack_slice_length raw bs bpl i hle hi

theorem div_mul_le_len (len bs : ℕ) : len / bs * bs ≤ len :=
  Nat.div_mul_le_self len bs

theorem rowsOk_of_le (raw : List ℤ) (bs bpl : ℕ) (hle : bpl * bs ≤ raw.length) :
    rowsOk raw bs bpl = true := by
  rw [rowsOk, List.all_eq_true]
  intro i hi
  rw [List.mem_range] at hi
  simp [stack_slice_length raw bs bpl i hle hi]

/-- Positional description of gen_batch: the i-th yielded pair, for i below
epoch_size, holds at row r the column window [i*ns, (i+1)*ns) of the r-th
stacked row, on both the x and the y side. -/
theorem gen_batch_get (raw_x raw_y : List ℤ) (bs ns i r : ℕ)
    (hi : i < raw_x.length / bs / ns) (hr : r < bs) :
    ((gen_batch raw_x raw_y bs ns).getD i ([], [])).1.get? r
      = some (pySlice (stackRow raw_x (raw_x.length / bs) r) (i * ns) ((i + 1) * ns))
    ∧ ((gen_batch raw_x raw_y bs ns).getD i ([], [])).2.get? r
      = some (pySlice (stackRow raw_y (raw_x.length / bs) r) (i * ns) ((i + 1) * ns)) := by
  have hget : (gen_batch raw_x raw_y bs ns).getD i ([], [])
      = (colSlice (stackRows raw_x bs (raw_x.length / bs)) (i * ns) ((i + 1) * ns),
         colSlice (stackRows raw_y bs (raw_x.length / bs)) (i * ns) ((i + 1) * ns)) := by
    rw [List.getD_eq_get?]
    unfold gen_batch
    rw [List.get?_map, List.get?_range hi]
    rfl
  rw [hget]
  constructor <;>
    simp [colSlice, stackRows, List.get?_map, List.getElem?_range, hr]

theorem getD_of_get?_eq {α : Type} {l : List α} {k : ℕ} {v d : α}
    (h : l.get? k = some v) : l.getD k d = v := by
  rw [List.getD_eq_get?, h]
  rfl

/-- A column window of width ns taken inside a row of length bpl, at a
window index below epoch_size = bpl / ns, has exactly ns elements. -/
theorem window_length {α : Type} (row : List α) (bpl ns i : ℕ)
    (hrow : row.length = bpl) (hi : i < bpl / ns) :
    (pySlice row (i * ns) ((i + 1) * ns)).length = ns := by
  rw [pySlice_length, hrow]
  have h1 : (i + 1) * ns ≤ bpl / ns * ns := Nat.mul_le_mul_right ns (by omega)
  have h2 : bpl / ns * ns ≤ bpl := Nat.div_mul_le_self bpl ns
  have h3 : (i + 1) * ns = i * ns + ns := by ring
  omega

/-- Every pair yielded by gen_batch consists of two matrices with
batch_size rows of num_steps elements each. -/
theorem gen_batch_mem_shape (raw_x raw_y : List ℤ) (bs ns : ℕ)
    (hlen : raw_x.length = raw_y.length) :
    ∀ p ∈ gen_batch raw_x raw_y bs ns,
      p.1.length = bs ∧ p.2.length = bs
      ∧ (∀ row ∈ p.1, row.length = ns) ∧ (∀ row ∈ p.2, row.length = ns) := by
  intro p hp
  unfold gen_batch at hp
  obtain ⟨i, hi, hpi⟩ := List.mem_map.1 hp
  rw [List.mem_range] at hi
  subst hpi
  have hxrow : ∀ row ∈ stackRows raw_x bs (raw_x.length / bs),
      row.length = raw_x.length / bs := by
    intro row hrow
    obtain ⟨j, hj, hrj⟩ := List.mem_map.1 hrow
    rw [List.mem_range] at hj
    subst hrj
    exact stackRow_length raw_x bs _ j (div_mul_le_len _ _) hj
  have hyrow : ∀ row ∈ stackRows raw_y bs (raw_x.length / bs),
      row.length = raw_x.length / bs := by
    intro row hrow
    obtain ⟨j, hj, hrj⟩ := List.mem_map.1 hrow
    rw [List.mem_range] at hj
    subst hrj
    exact stackRow_length raw_y bs _ j (by rw [← hlen]; exact div_mul_le_len _ _) hj
  refine ⟨by simp [colSlice, stackRows], by simp [colSlice, stackRows], ?_, ?_⟩
  · intro row hrow
    obtain ⟨row0, hrow0, hr0⟩ := List.mem_map.1 hrow
    subst hr0
    exact window_length row0 _ ns i (hxrow row0 hrow0) hi
  · intro row hrow
    obtain ⟨row0, hrow0, hr0⟩ := List.mem_map.1 hrow
    subst hr0
    exact window_length row0 _ ns i (hyrow row0 hrow0) hi

/-- C3 (confirmed).  For every raw pair of equal length and positive
batch_size and num_steps, every yielded pair (x, y) has the fixed shape
[batch_size, num_steps], for x and y alike. -/
theorem C3_fixed_shape (raw_x raw_y : List ℤ) (bs ns : ℕ)
    (hlen : raw_x.length = raw_y.length) (hbs : 1 ≤ bs) (hns : 1 ≤ ns) :
    ∀ p ∈ gen_batch raw_x raw_y bs ns,
      p.1.length = bs ∧ p.2.length = bs
      ∧ (∀ row ∈ p.1, row.length = ns) ∧ (∀ row ∈ p.2, row.length = ns) :=
  gen_batch_mem_shape raw_x raw_y bs ns hlen

/-- C3 witness: the theorem applied to a concrete input and a concrete
yielded pair. -/
theorem C3_witness :
    ([[(5:ℤ)],[7]], [[(5:ℤ)],[7]]).1.length = 2
    ∧ ([[(5:ℤ)],[7]], [[(5:ℤ)],[7]]).2.length = 2
    ∧ (∀ row ∈ ([[(5:ℤ)],[7]], [[(5:ℤ)],[7]]).1, row.length = 1)
    ∧ (∀ row ∈ ([[(5:ℤ)],[7]], [[(5:ℤ)],[7]]).2, row.length = 1) :=
  C3_fixed_shape [5,6,7,8] [5,6,7,8] 2 1 rfl (by decide) (by decide)
    ([[(5:ℤ)],[7]], [[(5:ℤ)],[7]]) (by decide)

/-- C10 (confirmed).  On degenerate inputs gen_batch yields nothing rather
than failing: when batch_size exceeds the data length, or num_steps exceeds
the batch partition length, the generator produces zero batches, and the
checked variant confirms that no exception is raised. -/
theorem C10_degenerate_empty (raw_x raw_y : List ℤ) (bs ns : ℕ)
    (hlen : raw_x.length = raw_y.length) (hbs : 1 ≤ bs) (hns : 1 ≤ ns)
    (hdeg : raw_x.length < bs ∨ raw_x.length / bs < ns) :
    gen_batch raw_x raw_y bs ns = []
    ∧ gen_batch_checked raw_x raw_y bs ns = some [] := by
  have hE : raw_x.length / bs / ns = 0 := by
    rcases hdeg with h | h
    · rw [Nat.div_eq_of_lt h, Nat.zero_div]
    · exact Nat.div_eq_of_lt h
  have h1 : gen_batch raw_x raw_y bs ns = [] := by
    unfold gen_batch
    simp [hE]
  refine ⟨h1, ?_⟩
  have h2 : rowsOk raw_x bs (raw_x.length / bs) = true :=
    rowsOk_of_le raw_x bs _ (div_mul_le_len _ _)
  have h3 : rowsOk raw_y bs (raw_x.length / bs) = true :=
    rowsOk_of_le raw_y bs _ (by rw [← hlen]; exact div_mul_le_len _ _)
  unfold gen_batch_checked
  rw [if_neg (by omega : ¬ (bs = 0 ∨ ns = 0))]
  simp [h2, h3, h1]

/-- C10 witness: the theorem applied at a concrete degenerate input. -/
theorem C10_witness :
    gen_batch [(1:ℤ),2] [(1:ℤ),2] 5 1 = []
    ∧ gen_batch_checked [(1:ℤ),2] [(1:ℤ),2] 5 1 = some [] :=
  C10_degenerate_empty [1,2] [1,2] 5 1 rfl (by decide) (by decide)
    (Or.inl (by decide))

/-- Reading through a slice: the element at offset c of l[a:b] is the
element of l at a + c, provided a + c stays below the upper bound b. -/
theorem pySlice_get? {α : Type} (l : List α) (a b c : ℕ) (h : a + c < b) :
    (pySlice l a b).get? c = l.get? (a + c) := by
  unfold pySlice
  rw [List.get?_drop]
  exact List.get?_take h

/-- C4 (amended: the row content passes through the int32 cast of the
destination matrix, the identity on the binary data of the notebook).
gen_batch splits the data into fixed-length windows in sequence order:
exactly bpl // num_steps pairs are yielded, for i in increasing order, and
the i-th pair holds at row r the columns [i*num_steps, (i+1)*num_steps) of
the int32 cast of the contiguous slice raw[bpl*r : bpl*(r+1)], where
bpl = len(raw_x) // batch_size. -/
theorem C4_window_structure (raw_x raw_y : List ℤ) (bs ns : ℕ)
    (hlen : raw_x.length = raw_y.length) (hbs : 1 ≤ bs) (hns : 1 ≤ ns) :
    (gen_batch raw_x raw_y bs ns).length = raw_x.length / bs / ns
    ∧ ∀ i, i < raw_x.length / bs / ns → ∀ r, r < bs →
      ((gen_batch raw_x raw_y bs ns).getD i ([], [])).1.get? r
        = some (pySlice ((pySlice raw_x (raw_x.length / bs * r)
            (raw_x.length / bs * (r + 1))).map int32cast) (i * ns) ((i + 1) * ns))
      ∧ ((gen_batch raw_x raw_y bs ns).getD i ([], [])).2.get? r
        = some (pySlice ((pySlice raw_y (raw_x.length / bs * r)
            (raw_x.length / bs * (r + 1))).map int32cast) (i * ns) ((i + 1) * ns)) := by
  constructor
  · unfold gen_batch
    simp
  · intro i hi r hr
    exact gen_batch_get raw_x raw_y bs ns i r hi hr

/-- C4 counterexample: without the int32 cast the claim fails.  For
raw_x = [2^31] with batch_size = num_steps = 1, the claim as stated says the
single yielded x equals the slice raw_x[0:1] = [2^31], but the stacking
stored the value in an int32 matrix, which wrapped it to -2^31. -/
theorem C4_cex :
    ¬ (((gen_batch [(2:ℤ)^31] [0] 1 1).getD 0 ([], [])).1.get? 0
        = some [(2:ℤ)^31]) := by
  decide

/-- C4 witness: the amended theorem applied at a concrete input. -/
theorem C4_witness :
    ((gen_batch [(3:ℤ),4] [(6:ℤ),9] 1 2).getD 0 ([], [])).1.get? 0
      = some (pySlice ((pySlice [(3:ℤ),4] (([(3:ℤ),4] : List ℤ).length / 1 * 0)
          (([(3:ℤ),4] : List ℤ).length / 1 * (0 + 1))).map int32cast) (0 * 2) ((0 + 1) * 2))
    ∧ ((gen_batch [(3:ℤ),4] [(6:ℤ),9] 1 2).getD 0 ([], [])).2.get? 0
      = some (pySlice ((pySlice [(6:ℤ),9] (([(3:ℤ),4] : List ℤ).length / 1 * 0)
          (([(3:ℤ),4] : List ℤ).length / 1 * (0 + 1))).map int32cast) (0 * 2) ((0 + 1) * 2)) :=
  (C4_window_structure [3,4] [6,9] 1 2 rfl (by decide) (by decide)).2
    0 (by decide) 0 (by decide)

/-- C9 (amended: through the int32 cast of the stacked matrices, the
identity on the binary data of the notebook).  Input/label alignment is
preserved by batching: on the i-th yielded pair, entry (r, c) of x and of y
both come from the same raw index j = bpl*r + i*num_steps + c, with
bpl = len(raw_x) // batch_size. -/
theorem C9_alignment (raw_x raw_y : List ℤ) (bs ns : ℕ)
    (hlen : raw_x.length = raw_y.length) (hbs : 1 ≤ bs) (hns : 1 ≤ ns) :
    ∀ i, i < raw_x.length / bs / ns → ∀ r, r < bs → ∀ c, c < ns →
      (((gen_batch raw_x raw_y bs ns).getD i ([], [])).1.getD r []).get? c
        = (raw_x.get? (raw_x.length / bs * r + i * ns + c)).map int32cast
      ∧ (((gen_batch raw_x raw_y bs ns).getD i ([], [])).2.getD r []).get? c
        = (raw_y.get? (raw_x.length / bs * r + i * ns + c)).map int32cast := by
  intro i hi r hr c hc
  obtain ⟨hx, hy⟩ := gen_batch_get raw_x raw_y bs ns i r hi hr
  have hcol : i * ns + c < (i + 1) * ns := by
    have : (i + 1) * ns = i * ns + ns := by ring
    omega
  have hbpl : i * ns + c < raw_x.length / bs := by
    have h1 : (i + 1) * ns ≤ raw_x.length / bs / ns * ns :=
      Nat.mul_le_mul_right ns (by omega)
    have h2 : raw_x.length / bs / ns * ns ≤ raw_x.length / bs :=
      Nat.div_mul_le_self _ ns
    omega
  have hrowidx : raw_x.length / bs * r + (i * ns + c)
      < raw_x.length / bs * (r + 1) := by
    have : raw_x.length / bs * (r + 1) = raw_x.length / bs * r + raw_x.length / bs := by
      ring
    omega
  constructor
  · rw [getD_of_get?_eq hx, pySlice_get? _ _ _ _ hcol]
    unfold stackRow
    rw [List.get?_map, pySlice_get? _ _ _ _ hrowidx]
    rw [show raw_x.length / bs * r + (i * ns + c)
        = raw_x.length / bs * r + i * ns + c by ring]
  · rw [getD_of_get?_eq hy, pySlice_get? _ _ _ _ hcol]
    unfold stackRow
    rw [List.get?_map, pySlice_get? _ _ _ _ hrowidx]
    rw [show raw_x.length / bs * r + (i * ns + c)
        = raw_x.length / bs * r + i * ns + c by ring]

/-- C9 counterexample: without the int32 cast the claim fails.  For
raw_x = [0, 2^32 + 5], the yielded entry x[0][1] is the int32 wrap 5 of the
raw value 2^32 + 5, not the raw value itself. -/
theorem C9_cex :
    ¬ ((((gen_batch [(0:ℤ), 2^32 + 5] [0, 0] 1 2).getD 0 ([], [])).1.getD 0 []).get? 1
        = some ((2:ℤ)^32 + 5)) := by
  decide

/-- C9 witness: the amended theorem applied at a concrete input. -/
theorem C9_witness :
    (((gen_batch [(10:ℤ),11,12] [(20:ℤ),21,22] 1 3).getD 0 ([], [])).1.getD 0 []).get? 2
      = (([(10:ℤ),11,12] : List ℤ).get?
          (([(10:ℤ),11,12] : List ℤ).length / 1 * 0 + 0 * 3 + 2)).map int32cast
    ∧ (((gen_batch [(10:ℤ),11,12] [(20:ℤ),21,22] 1 3).getD 0 ([], [])).2.getD 0 []).get? 2
      = (([(20:ℤ),21,22] : List ℤ).get?
          (([(10:ℤ),11,12] : List ℤ).length / 1 * 0 + 0 * 3 + 2)).map int32cast :=
  C9_alignment [10,11,12] [20,21,22] 1 3 rfl (by decide) (by decide)
    0 (by decide) 0 (by decide) 2 (by decide)

/-- Total number of scalar elements in the batches yielded by gen_batch,
counting the x and the y component of every pair. -/
def yieldCount (batches : List (List (List ℤ) × List (List ℤ))) : ℕ :=
  (batches.map (fun p => (p.1.map List.length).sum + (p.2.map List.length).sum)).sum

theorem sum_map_const {α : Type} (l : List α) (F : α → ℕ) (k : ℕ)
    (h : ∀ a ∈ l, F a = k) : (l.map F).sum = l.length * k := by
  induction l with
  | nil => simp
  | cons a l ih =>
    rw [List.map_cons, List.sum_cons, ih (fun x hx => h x (List.mem_cons_of_mem a hx)),
        h a (List.mem_cons_self a l), List.length_cons]
    ring

/-- A matrix with bs rows of length ns holds bs * ns elements. -/
theorem matrix_elems (m : List (List ℤ)) (bs ns : ℕ)
    (hrows : m.length = bs) (hcols : ∀ row ∈ m, row.length = ns) :
    (m.map List.length).sum = bs * ns := by
  rw [sum_map_const m List.length ns hcols, hrows]

/-- C2 (amended: equality holds when batch_size divides the data length and
num_steps divides the batch partition length; in general gen_batch drops
the remainder elements, see the counterexample).  Under those divisibility
conditions, the total number of elements yielded across all (x, y) batches
equals the total element count of the raw data. -/
theorem C2_count_preserved (raw_x raw_y : List ℤ) (bs ns : ℕ)
    (hlen : raw_x.length = raw_y.length) (hbs : 1 ≤ bs) (hns : 1 ≤ ns)
    (hdb : bs ∣ raw_x.length) (hdn : ns ∣ raw_x.length / bs) :
    yieldCount (gen_batch raw_x raw_y bs ns) = raw_x.length + raw_y.length := by
  have hshape := gen_batch_mem_shape raw_x raw_y bs ns hlen
  have hper : ∀ p ∈ gen_batch raw_x raw_y bs ns,
      (p.1.map List.length).sum + (p.2.map List.length).sum = bs * ns + bs * ns := by
    intro p hp
    obtain ⟨h1, h2, h3, h4⟩ := hshape p hp
    rw [matrix_elems p.1 bs ns h1 h3, matrix_elems p.2 bs ns h2 h4]
  have hlenb : (gen_batch raw_x raw_y bs ns).length = raw_x.length / bs / ns := by
    unfold gen_batch
    simp
  unfold yieldCount
  rw [sum_map_const _ _ _ hper, hlenb]
  have e1 : raw_x.length / bs / ns * ns = raw_x.length / bs := Nat.div_mul_cancel hdn
  have e2 : raw_x.length / bs * bs = raw_x.length := Nat.div_mul_cancel hdb
  calc raw_x.length / bs / ns * (bs * ns + bs * ns)
      = raw_x.length / bs / ns * ns * bs + raw_x.length / bs / ns * ns * bs := by ring
    _ = raw_x.length + raw_y.length := by rw [e1, e2, ← hlen]

/-- C2 counterexample: with three raw elements, batch_size 2 and
num_steps 1, only four of the six raw elements are yielded, so batching
does not preserve the total element count in general. -/
theorem C2_cex :
    yieldCount (gen_batch [(0:ℤ),1,2] [(0:ℤ),1,2] 2 1)
      ≠ ([(0:ℤ),1,2] : List ℤ).length + ([(0:ℤ),1,2] : List ℤ).length := by
  decide

/-- C2 witness: the amended theorem applied at a concrete input satisfying
the divisibility conditions. -/
theorem C2_witness :
    yieldCount (gen_batch [(0:ℤ),1,2,3] [(0:ℤ),1,2,3] 2 2)
      = ([(0:ℤ),1,2,3] : List ℤ).length + ([(0:ℤ),1,2,3] : List ℤ).length :=
  C2_count_preserved [0,1,2,3] [0,1,2,3] 2 2 rfl (by decide) (by decide)
    (by decide) (by decide)

/-- C7 (amended: gen_data raises no exception for size 0 and for sizes at
least 8, but raises IndexError for sizes 1 to 7, see the counterexample;
the gen_batch half holds as stated).  The checked gen_batch, whose failure
cases are a zero divisor and a row assignment whose slice does not fill the
row, always succeeds on equal-length raw data with positive batch_size and
num_steps. -/
theorem C7_no_exception :
    (∀ (X : List ℕ) (r : ℕ → ℚ), X.length = 0 ∨ 8 ≤ X.length →
      (gen_data X r).isSome = true)
    ∧ (∀ (raw_x raw_y : List ℤ) (bs ns : ℕ), raw_x.length = raw_y.length →
        1 ≤ bs → 1 ≤ ns → (gen_batch_checked raw_x raw_y bs ns).isSome = true) := by
  constructor
  · intro X r h
    rcases h with h | h
    · rw [List.eq_nil_of_length_eq_zero h, gen_data_nil]
      rfl
    · obtain ⟨Y, hY, -, -⟩ := gen_data_some X r h
      rw [hY]
      rfl
  · intro raw_x raw_y bs ns hlen hbs hns
    have h2 : rowsOk raw_x bs (raw_x.length / bs) = true :=
      rowsOk_of_le raw_x bs _ (div_mul_le_len _ _)
    have h3 : rowsOk raw_y bs (raw_x.length / bs) = true :=
      rowsOk_of_le raw_y bs _ (by rw [← hlen]; exact div_mul_le_len _ _)
    unfold gen_batch_checked
    rw [if_neg (by omega : ¬ (bs = 0 ∨ ns = 0))]
    simp [h2, h3]

/-- C7 counterexample: at size 3 the read X[0-8] is out of range even after
the Python negative-index wrap, so gen_data raises IndexError, refuting the
claim for every size at least 0. -/
theorem C7_cex : gen_data [1,1,1] (fun _ => (0:ℚ)) = none := rfl

/-- C7 witness: the amended theorem applied at concrete inputs. -/
theorem C7_witness :
    (gen_data [0,0,0,0,0,0,0,0] (fun _ => (0:ℚ))).isSome = true
    ∧ (gen_batch_checked [(2:ℤ)] [(3:ℤ)] 1 1).isSome = true :=
  ⟨C7_no_exception.1 [0,0,0,0,0,0,0,0] (fun _ => (0:ℚ)) (Or.inr (by decide)),
   C7_no_exception.2 [2] [3] 1 1 rfl (by decide) (by decide)⟩

/-- The inner loop of train_network over the enumerated steps of one epoch:
s is the step counter, acc the running training_loss.  Each step first adds
the loss returned by the session; when the step index is a positive
multiple of 100 the loop records acc / 100 and resets the accumulator. -/
def logLoop : ℕ → ℚ → List ℚ → List ℚ
  | _, _, [] => []
  | s, acc, l :: ls =>
    if s % 100 = 0 ∧ 0 < s then (acc + l) / 100 :: logLoop (s + 1) 0 ls
    else logLoop (s + 1) (acc + l) ls

/-- train_network of the notebook, with the per-step total_loss values
returned by the session treated as opaque inputs, one list per epoch.  Each
epoch restarts the step counter and the accumulator at zero, and the
recorded entries of all epochs are appended to the same returned list. -/
def train_network (epochLosses : List (List ℚ)) : List ℚ :=
  (epochLosses.map (fun ls => logLoop 0 0 ls)).join

/-- Countdown form of the inner loop: c is the number of further elements
to consume before the next recording step. -/
def logLoopC : ℕ → ℚ → List ℚ → List ℚ
  | _, _, [] => []
  | c, acc, l :: ls =>
    if c = 0 then (acc + l) / 100 :: logLoopC 99 0 ls
    else logLoopC (c - 1) (acc + l) ls

/-- Number of further elements the loop at step s consumes before the next
recording step. -/
def stepCnt (s : ℕ) : ℕ :=
  if s = 0 then 100 else (100 - s % 100) % 100

/-- The window of per-step losses accumulated into the m-th recorded entry:
steps 0 to 100 inclusive for the first entry (no entry is recorded at step
0, so the first accumulation spans 101 steps), then 100 steps each. -/
def lossWindow (ls : List ℚ) (m : ℕ) : List ℚ :=
  if m = 0 then ls.take 101 else (ls.drop (100 * m + 1)).take 100

/-- Specification of the entries recorded during one epoch of n steps:
(n - 1) / 100 entries, the m-th being the sum of its loss window divided
by 100. -/
def epochLogEntries (ls : List ℚ) : List ℚ :=
  (List.range ((ls.length - 1) / 100)).map (fun m => (lossWindow ls m).sum / 100)

/-- Specification of the entries recorded by the countdown loop restarted
after a recording step: consecutive windows of exactly 100 steps. -/
def tailEntries (ls : List ℚ) : List ℚ :=
  (List.range (ls.length / 100)).map (fun m => ((ls.drop (100 * m)).take 100).sum / 100)

theorem stepCnt_eq_zero_iff (s : ℕ) : stepCnt s = 0 ↔ (s % 100 = 0 ∧ 0 < s) := by
  unfold stepCnt
  split <;> omega

theorem stepCnt_succ_of_zero (s : ℕ) (h : stepCnt s = 0) : stepCnt (s + 1) = 99 := by
  unfold stepCnt at h ⊢
  split at h <;> split <;> omega

theorem stepCnt_succ_of_pos (s : ℕ) (h : stepCnt s ≠ 0) :
    stepCnt (s + 1) = stepCnt s - 1 := by
  unfold stepCnt at h ⊢
  split at h <;> split <;> omega

/-- The step-indexed loop agrees with the countdown loop started with the
matching countdown. -/
theorem logLoop_eq_logLoopC (ls : List ℚ) :
    ∀ (s : ℕ) (acc : ℚ), logLoop s acc ls = logLoopC (stepCnt s) acc ls := by
  induction ls with
  | nil => intro s acc; rfl
  | cons l ls ih =>
    intro s acc
    by_cases h : s % 100 = 0 ∧ 0 < s
    · have hc : stepCnt s = 0 := (stepCnt_eq_zero_iff s).2 h
      rw [logLoop, if_pos h, logLoopC, hc, if_pos rfl, ih (s + 1) 0,
          stepCnt_succ_of_zero s hc]
    · have hc : stepCnt s ≠ 0 := fun hz => h ((stepCnt_eq_zero_iff s).1 hz)
      rw [logLoop, if_neg h, logLoopC, if_neg hc, ih (s + 1) (acc + l),
          stepCnt_succ_of_pos s hc]

/-- One recording period of the countdown loop: it consumes c + 1 elements,
records the accumulated sum divided by 100, and restarts with countdown 99;
with at most c elements left it records nothing. -/
theorem logLoopC_chunk (ls : List ℚ) :
    ∀ (c : ℕ) (acc : ℚ),
      logLoopC c acc ls =
        if ls.length ≤ c then []
        else (acc + (ls.take (c + 1)).sum) / 100 :: logLoopC 99 0 (ls.drop (c + 1)) := by
  induction ls with
  | nil => intro c acc; simp [logLoopC]
  | cons l ls ih =>
    intro c acc
    cases c with
    | zero =>
      rw [logLoopC, if_pos rfl]
      simp
    | succ c =>
      rw [logLoopC, if_neg (Nat.succ_ne_zero c), Nat.succ_sub_one, ih c (acc + l)]
      by_cases h : ls.length ≤ c
      · rw [if_pos h, if_pos (by simp; omega)]
      · rw [if_neg h, if_neg (by simp; omega)]
        rw [List.take_succ_cons, List.sum_cons, List.drop_succ_cons]
        congr 2
        ring

/-- After a recording step the countdown loop produces exactly the
100-step windows of the remaining losses. -/
theorem logLoopC_99_eq_tailEntries :
    ∀ (N : ℕ) (ls : List ℚ), ls.length ≤ N → logLoopC 99 0 ls = tailEntries ls := by
  intro N
  induction N with
  | zero =>
    intro ls h
    have hnil : ls = [] := List.eq_nil_of_length_eq_zero (by omega)
    subst hnil
    rfl
  | succ N ih =>
    intro ls h
    rw [logLoopC_chunk]
    by_cases hl : ls.length ≤ 99
    · rw [if_pos hl]
      unfold tailEntries
      rw [Nat.div_eq_of_lt (by omega)]
      rfl
    · rw [if_neg hl]
      rw [ih (ls.drop 100) (by rw [List.length_drop]; omega)]
      unfold tailEntries
      have hlen : ls.length / 100 = (ls.drop 100).length / 100 + 1 := by
        rw [List.length_drop]
        omega
      rw [hlen, List.range_succ_eq_map, List.map_cons, List.map_map]
      congr 1
      · norm_num
      · congr 1
        funext m
        simp only [Function.comp]
        rw [List.drop_drop]
        apply congrArg (fun j : ℕ => ((ls.drop j).take 100).sum / 100)
        omega

/-- The inner loop of one epoch, started at step 0 with a zero accumulator,
records exactly the entries of the loss-window specification. -/
theorem epochLog_eq_entries (ls : List ℚ) :
    logLoop 0 0 ls = epochLogEntries ls := by
  rw [logLoop_eq_logLoopC]
  have hc : stepCnt 0 = 100 := rfl
  rw [hc, logLoopC_chunk]
  by_cases hl : ls.length ≤ 100
  · rw [if_pos hl]
    unfold epochLogEntries
    rw [Nat.div_eq_of_lt (by omega)]
    rfl
  · rw [if_neg hl]
    rw [logLoopC_99_eq_tailEntries (ls.drop 101).length (ls.drop 101) le_rfl]
    unfold epochLogEntries tailEntries
    have hlen : (ls.length - 1) / 100 = (ls.drop 101).length / 100 + 1 := by
      rw [List.length_drop]
      omega
    rw [hlen, List.range_succ_eq_map, List.map_cons, List.map_map]
    congr 1
    · unfold lossWindow
      norm_num
    · congr 1
      funext m
      simp only [Function.comp]
      unfold lossWindow
      rw [if_neg (Nat.succ_ne_zero m), List.drop_drop]
      apply congrArg (fun j : ℕ => ((ls.drop j).take 100).sum / 100)
      omega

/-- C6 (confirmed).  Treating the per-step loss values returned by the
session as opaque inputs, train_network appends an entry to its returned
list exactly at the steps of each epoch whose index is a positive multiple
of 100; the entry appended at step 100*m is the loss accumulated since the
last append (steps 0 to 100 for the first entry, the following 100 steps
for each later one) divided by 100, the accumulator is reset after each
append, and the entries of all epochs are returned in order.  The right
side is the closed form of that description: (n - 1) / 100 entries per
epoch of n steps, the m-th being the sum of its loss window over 100. -/
theorem C6_periodic_loss_logging (epochLosses : List (List ℚ)) :
    train_network epochLosses = (epochLosses.map epochLogEntries).join := by
  unfold train_network
  rw [show (fun ls : List ℚ => logLoop 0 0 ls) = epochLogEntries from
    funext epochLog_eq_entries]
